import Mathlib

/-!
Verification of the `adar_registry` crate: a shallow embedding of
`Registry`, `Entry`, `RegistryMap`, `Event` and `TracedRegistry`
(files `registry.rs`, `entry.rs`, `registry_map.rs`, `event.rs`,
`traced_registry.rs`), together with proofs of the specification's
claims about them.

Modelling conventions:
* `BTreeMap<K, V>` is modelled as an association list `List (K × V)`
  kept sorted by key; insertion, lookup and removal walk the list in
  key order, matching the extensional behaviour of the ordered map.
* The `u32` identifier counter `next_id` is a `Nat` reduced modulo
  `2 ^ 32` at the increment (`lock.next_id += 1`), matching release-mode
  wrapping arithmetic.
* The removal callback is opaque: the state records whether one is
  installed, and every operation returns the list of callback
  invocations (identifier, value) it performs.
* The `Weak`/`Arc` structure of the inner state is modelled as
  `Option (Inner T)`: `none` means every strong reference is gone and
  the inner state is destroyed.
-/

set_option autoImplicit false

namespace AdarRegistry

universe u v

variable {K : Type u} {T : Type v}

/-- Modulus of the `u32` type `EntryId` (`entry.rs`, `pub type EntryId = u32`). -/
def U32 : Nat := 4294967296

/-- Keys of an association list, in list order. -/
def keys (m : List (K × T)) : List K := m.map Prod.fst

/-- Model of `BTreeMap::insert`: insert a pair into a key-sorted association list,
replacing the value if the key is present. -/
def mapInsert [LinearOrder K] (k : K) (v : T) : List (K × T) → List (K × T)
  | [] => [(k, v)]
  | (k', v') :: m =>
    if k < k' then (k, v) :: (k', v') :: m
    else if k = k' then (k, v) :: m
    else (k', v') :: mapInsert k v m

/-- Model of `BTreeMap::get`: look up the value stored at a key. -/
def mapLookup [DecidableEq K] (k : K) : List (K × T) → Option T
  | [] => none
  | (k', v') :: m => if k = k' then some v' else mapLookup k m

/-- Model of `BTreeMap::remove`: remove the entry at a key (the first matching pair). -/
def mapRemove [DecidableEq K] (k : K) : List (K × T) → List (K × T)
  | [] => []
  | (k', v') :: m => if k = k' then m else (k', v') :: mapRemove k m

/-- Model of `BTreeMap::contains_key`. -/
def containsK [DecidableEq K] (k : K) (m : List (K × T)) : Bool :=
  (mapLookup k m).isSome

/-- Value update at a key, as performed through a write guard's `get_mut`:
the value stored at the key is replaced, keys are untouched. -/
def mapUpdate [DecidableEq K] (k : K) (v : T) : List (K × T) → List (K × T)
  | [] => []
  | (k', v') :: m => if k = k' then (k', v) :: m else (k', v') :: mapUpdate k v m

/-- Strictly ascending keys: the sortedness invariant of `BTreeMap` iteration. -/
abbrev SortedKeys [LT K] (m : List (K × T)) : Prop :=
  (keys m).Pairwise (· < ·)

/-! ### Basic association-list lemmas -/

theorem mapLookup_insert_self [LinearOrder K] (k : K) (v : T) (m : List (K × T)) :
    mapLookup k (mapInsert k v m) = some v := by
  induction m with
  | nil => simp [mapInsert, mapLookup]
  | cons p m ih =>
    obtain ⟨k', v'⟩ := p
    by_cases h1 : k < k'
    · simp [mapInsert, h1, mapLookup]
    · by_cases h2 : k = k'
      · simp [mapInsert, h1, h2, mapLookup]
      · simp [mapInsert, h1, h2, mapLookup, ih]

theorem mapLookup_insert_ne [LinearOrder K] {j k : K} (h : j ≠ k) (v : T)
    (m : List (K × T)) : mapLookup j (mapInsert k v m) = mapLookup j m := by
  induction m with
  | nil => simp [mapInsert, mapLookup, h]
  | cons p m ih =>
    obtain ⟨k', v'⟩ := p
    by_cases h1 : k < k'
    · simp only [mapInsert, if_pos h1, mapLookup, if_neg h]
    · by_cases h2 : k = k'
      · subst h2
        simp [mapInsert, h1, mapLookup, h]
      · by_cases h3 : j = k'
        · simp [mapInsert, h1, h2, mapLookup, h3]
        · simp [mapInsert, h1, h2, mapLookup, h3, ih]

theorem mapLookup_remove_ne [DecidableEq K] {j k : K} (h : j ≠ k)
    (m : List (K × T)) : mapLookup j (mapRemove k m) = mapLookup j m := by
  induction m with
  | nil => simp [mapRemove]
  | cons p m ih =>
    obtain ⟨k', v'⟩ := p
    by_cases h1 : k = k'
    · subst h1
      simp [mapRemove, mapLookup, h]
    · by_cases h2 : j = k'
      · simp [mapRemove, h1, mapLookup, h2]
      · simp [mapRemove, h1, mapLookup, h2, ih]

theorem keys_mapRemove [DecidableEq K] (k : K) (m : List (K × T)) :
    keys (mapRemove k m) = (keys m).erase k := by
  induction m with
  | nil => simp [mapRemove, keys]
  | cons p m ih =>
    obtain ⟨k', v'⟩ := p
    by_cases h1 : k = k'
    · subst h1
      simp [mapRemove, keys, List.erase_cons_head]
    · have : (k' == k) = false := by
        simp [Ne.symm h1]
      simp [mapRemove, h1, keys, List.erase_cons, this]
      exact ih

theorem mapLookup_isSome_iff_mem_keys [DecidableEq K] (k : K) (m : List (K × T)) :
    (mapLookup k m).isSome = true ↔ k ∈ keys m := by
  induction m with
  | nil => simp [mapLookup, keys]
  | cons p m ih =>
    obtain ⟨k', v'⟩ := p
    by_cases h : k = k'
    · simp [mapLookup, h, keys]
    · simp [mapLookup, h, keys, ih]

theorem mapLookup_remove_self [DecidableEq K] (k : K) {m : List (K × T)}
    (hnd : (keys m).Nodup) : mapLookup k (mapRemove k m) = none := by
  induction m with
  | nil => simp [mapRemove, mapLookup]
  | cons p m ih =>
    obtain ⟨k', v'⟩ := p
    simp only [keys, List.map_cons, List.nodup_cons] at hnd
    by_cases h1 : k = k'
    · subst h1
      simp only [mapRemove, if_pos rfl]
      cases hlk : mapLookup k m with
      | none => exact hlk
      | some v =>
        exfalso
        have : k ∈ keys m := by
          rw [← mapLookup_isSome_iff_mem_keys]
          simp [hlk]
        exact hnd.1 this
    · simp only [mapRemove, if_neg h1, mapLookup, if_neg h1]
      exact ih hnd.2

theorem sortedKeys_nodup [Preorder K] {m : List (K × T)} (h : SortedKeys m) :
    (keys m).Nodup :=
  h.imp ne_of_lt

/-- When the key is absent, insertion is a permutation of consing the new pair. -/
theorem mapInsert_perm [LinearOrder K] {k : K} (v : T) {m : List (K × T)}
    (h : k ∉ keys m) : List.Perm (mapInsert k v m) ((k, v) :: m) := by
  induction m with
  | nil => simp [mapInsert]
  | cons p m ih =>
    obtain ⟨k', v'⟩ := p
    simp only [keys, List.map_cons, List.mem_cons] at h
    push_neg at h
    by_cases h1 : k < k'
    · simp [mapInsert, h1]
    · simp only [mapInsert, if_neg h1, if_neg h.1]
      exact ((ih h.2).cons _).trans (List.Perm.swap _ _ _)

theorem mem_keys_mapInsert [LinearOrder K] {j k : K} (v : T) {m : List (K × T)}
    (h : j ∈ keys (mapInsert k v m)) : j = k ∨ j ∈ keys m := by
  induction m with
  | nil => simpa [mapInsert, keys] using h
  | cons p m ih =>
    obtain ⟨k', v'⟩ := p
    by_cases h1 : k < k'
    · simp only [mapInsert, if_pos h1, keys, List.map_cons, List.mem_cons] at h ⊢
      tauto
    · by_cases h2 : k = k'
      · subst h2
        simp [mapInsert, h1, keys] at h ⊢
        tauto
      · simp only [mapInsert, if_neg h1, if_neg h2, keys, List.map_cons,
          List.mem_cons] at h ⊢
        rcases h with h | h
        · tauto
        · rcases ih h with h | h <;> tauto

/-- Inserting a key above every existing key appends the pair at the end. -/
theorem mapInsert_eq_append [LinearOrder K] {k : K} (v : T) {m : List (K × T)}
    (h : ∀ j ∈ keys m, j < k) : mapInsert k v m = m ++ [(k, v)] := by
  induction m with
  | nil => simp [mapInsert]
  | cons p m ih =>
    obtain ⟨k', v'⟩ := p
    simp only [keys, List.map_cons, List.mem_cons] at h
    have hk' : k' < k := h k' (Or.inl rfl)
    have h1 : ¬ k < k' := not_lt_of_gt hk'
    have h2 : k ≠ k' := ne_of_gt hk'
    simp only [mapInsert, if_neg h1, if_neg h2, List.cons_append, List.cons.injEq,
      true_and]
    exact ih fun j hj => h j (Or.inr hj)

theorem sortedKeys_mapRemove [DecidableEq K] [Preorder K] (k : K)
    {m : List (K × T)} (h : SortedKeys m) : SortedKeys (mapRemove k m) := by
  unfold SortedKeys at h ⊢
  rw [keys_mapRemove]
  exact h.erase k

theorem sortedKeys_mapInsert_top [LinearOrder K] {k : K} (v : T)
    {m : List (K × T)} (hs : SortedKeys m) (h : ∀ j ∈ keys m, j < k) :
    SortedKeys (mapInsert k v m) := by
  rw [mapInsert_eq_append v h]
  unfold SortedKeys at hs ⊢
  unfold keys at h ⊢
  rw [List.map_append]
  rw [List.pairwise_append]
  refine ⟨hs, by simp, ?_⟩
  intro a ha b hb
  simp only [List.map_cons, List.map_nil, List.mem_singleton] at hb
  subst hb
  exact h a ha

/-- A present key's pair can be split off the list, up to permutation. -/
theorem mapRemove_perm [DecidableEq K] {k : K} {v : T} {m : List (K × T)}
    (h : mapLookup k m = some v) : List.Perm m ((k, v) :: mapRemove k m) := by
  induction m with
  | nil => simp [mapLookup] at h
  | cons p m ih =>
    obtain ⟨k', v'⟩ := p
    by_cases h1 : k = k'
    · subst h1
      have hv : v' = v := by simpa [mapLookup] using h
      subst hv
      simp [mapRemove]
    · simp only [mapLookup, if_neg h1] at h
      simp only [mapRemove, if_neg h1]
      exact ((ih h).cons _).trans (List.Perm.swap _ _ _)

theorem keys_mapUpdate [DecidableEq K] (k : K) (v : T) (m : List (K × T)) :
    keys (mapUpdate k v m) = keys m := by
  induction m with
  | nil => simp [mapUpdate]
  | cons p m ih =>
    obtain ⟨k', v'⟩ := p
    by_cases h1 : k = k'
    · simp [mapUpdate, h1, keys]
    · simp only [mapUpdate, if_neg h1, keys, List.map_cons] at ih ⊢
      rw [ih]

/-! ### The Registry inner state (`registry.rs`)

`Inner<T>` holds the ordered map, the `next_id` counter and the optional
removal callback.  The callback itself is opaque; `hasCallback` records
whether one is installed, and operations report the invocations
`(identifier, removed value)` they make. -/

structure Inner (T : Type v) where
  map : List (Nat × T)
  next_id : Nat
  hasCallback : Bool
deriving DecidableEq

/-- Model of `Registry::new`: empty map, counter at 0, no callback. -/
def Inner.new : Inner T := ⟨[], 0, false⟩

/-- Model of `Registry::set_remove_callback`: installs a callback (replacing any). -/
def Inner.setRemoveCallback (s : Inner T) : Inner T :=
  { s with hasCallback := true }

/-- Model of `Registry::register`: under the exclusive lock, read `next_id`, insert the
value at that identifier, increment the counter (a wrapping `u32` add), and
return the issued identifier for the new `Entry`. -/
def Inner.register (s : Inner T) (v : T) : Inner T × Nat :=
  let entry_id := s.next_id
  ({ s with map := mapInsert entry_id v s.map,
            next_id := (s.next_id + 1) % U32 }, entry_id)

/-- Model of `Inner::remove` (the `RegistryInterface` implementation): remove the
identifier's entry if present and, when a callback is installed, invoke it
with the removed value.  The returned list holds the callback invocations. -/
def Inner.remove (s : Inner T) (entry_id : Nat) : Inner T × List (Nat × T) :=
  match mapLookup entry_id s.map with
  | none => (s, [])
  | some value =>
    ({ s with map := mapRemove entry_id s.map },
     if s.hasCallback then [(entry_id, value)] else [])

/-- Model of `Registry::len`. -/
def Inner.len (s : Inner T) : Nat := s.map.length

/-! ### Handles (`entry.rs`)

An `Entry` holds a weak reference and its identifier.  The weak reference is
modelled by passing the registry family's state `Option (Inner T)` to each
handle operation: `none` means the inner state has been destroyed (upgrade
fails), `some s` means it is alive. -/

/-- A read guard obtained from `Entry::read`: the locked inner state plus the
handle's identifier. -/
structure EntryReadGuard (T : Type v) where
  inner : Inner T
  entry_id : Nat
deriving DecidableEq

/-- A write guard obtained from `Entry::write`. -/
structure EntryWriteGuard (T : Type v) where
  inner : Inner T
  entry_id : Nat
deriving DecidableEq

namespace Entry

/-- Model of `Entry::read`: upgrade the weak reference; `None` when the registry no
longer exists, otherwise a guard over the locked inner state. -/
def read (st : Option (Inner T)) (id : Nat) : Option (EntryReadGuard T) :=
  match st with
  | none => none
  | some s => some ⟨s, id⟩

/-- Model of `Entry::write`: upgrade the weak reference; `None` when the registry no
longer exists, otherwise a guard over the locked inner state. -/
def write (st : Option (Inner T)) (id : Nat) : Option (EntryWriteGuard T) :=
  match st with
  | none => none
  | some s => some ⟨s, id⟩

/-- Model of `impl Drop for Entry`: upgrade the weak reference; if the inner state is
gone this is a no-op, otherwise call `Inner::remove` under the write lock.
Returns the new state and the callback invocations performed. -/
def drop (st : Option (Inner T)) (id : Nat) : Option (Inner T) × List (Nat × T) :=
  match st with
  | none => (none, [])
  | some s =>
    let r := s.remove id
    (some r.1, r.2)

/-- Model of `Entry::as_generic`: the two fields (weak reference, identifier) are moved
into a type-erased `Entry` via `MaybeUninit`/`ptr::read`, without running the
source handle's `Drop`.  Operationally the conversion touches no registry
state, performs no callback invocation, and the erased handle carries the
same identifier over the same weak reference. -/
def as_generic (st : Option (Inner T)) (id : Nat) :
    Option (Inner T) × List (Nat × T) × Nat :=
  (st, [], id)

end Entry

/-! ### Registry execution traces

A client program interleaves `register` calls with handle drops on one
living registry.  `RunState` tracks the inner state, the identifiers of
the handles that are still held (`live`), and every identifier issued so
far in issuance order (`issued`). -/

inductive ROp (T : Type v) where
  | reg (v : T)
  | drp (i : Nat)
deriving DecidableEq

structure RunState (T : Type v) where
  inner : Inner T
  live : List Nat
  issued : List Nat
deriving DecidableEq

/-- One client step: a `register` call issues a handle, a handle drop runs
`Entry`'s `Drop` implementation against the living inner state. -/
def step (st : RunState T) : ROp T → RunState T
  | .reg v =>
    let r := st.inner.register v
    ⟨r.1, st.live ++ [r.2], st.issued ++ [r.2]⟩
  | .drp i =>
    ⟨(st.inner.remove i).1, st.live.erase i, st.issued⟩

def runOps : List (ROp T) → RunState T → RunState T
  | [], st => st
  | op :: ops, st => runOps ops (step st op)

/-- Number of `register` calls in a trace. -/
def regCount : List (ROp T) → Nat
  | [] => 0
  | ROp.reg _ :: ops => regCount ops + 1
  | ROp.drp _ :: ops => regCount ops

/-- The run-time invariant of a registry state together with its live
handles: map keys and live identifiers are below the counter, live
identifiers are pairwise distinct and are exactly the keys present in the
map, and the map iterates in strictly ascending key order. -/
structure RunInv (st : RunState T) : Prop where
  keys_lt : ∀ k ∈ keys st.inner.map, k < st.inner.next_id
  live_lt : ∀ i ∈ st.live, i < st.inner.next_id
  live_nodup : st.live.Nodup
  live_iff : ∀ i, i ∈ st.live ↔ (mapLookup i st.inner.map).isSome = true
  sorted : SortedKeys st.inner.map

theorem runInv_init : RunInv (⟨Inner.new, [], []⟩ : RunState T) := by
  constructor <;> simp [Inner.new, keys, SortedKeys, mapLookup]

theorem runOps_spec (ops : List (ROp T)) (st : RunState T)
    (hinv : RunInv st) (hbound : st.inner.next_id + regCount ops < U32) :
    RunInv (runOps ops st) ∧
    (runOps ops st).inner.next_id = st.inner.next_id + regCount ops ∧
    (runOps ops st).issued =
      st.issued ++ List.range' st.inner.next_id (regCount ops) := by
  induction ops generalizing st with
  | nil =>
    simpa [runOps, regCount] using hinv
  | cons op ops ih =>
    cases op with
    | reg v =>
      simp only [regCount] at hbound
      have hc1 : st.inner.next_id + 1 < U32 := by omega
      have hmod : (st.inner.next_id + 1) % U32 = st.inner.next_id + 1 :=
        Nat.mod_eq_of_lt hc1
      set c := st.inner.next_id with hc
      have hmap2 : (step st (ROp.reg v)).inner.map = mapInsert c v st.inner.map := by
        simp [step, Inner.register]
      have hnid2 : (step st (ROp.reg v)).inner.next_id = c + 1 := by
        simp [step, Inner.register, hmod]
      have hlive2 : (step st (ROp.reg v)).live = st.live ++ [c] := by
        simp [step, Inner.register]
      have hiss2 : (step st (ROp.reg v)).issued = st.issued ++ [c] := by
        simp [step, Inner.register]
      have hcb2 : (step st (ROp.reg v)).inner.hasCallback = st.inner.hasCallback := by
        simp [step, Inner.register]
      have hinv' : RunInv (step st (ROp.reg v)) := by
        constructor
        · intro k hk
          rw [hmap2] at hk
          rw [hnid2]
          rcases mem_keys_mapInsert v hk with h | h
          · omega
          · have := hinv.keys_lt k h
            omega
        · intro i hi
          rw [hlive2] at hi
          rw [hnid2]
          rcases List.mem_append.1 hi with h | h
          · have := hinv.live_lt i h
            omega
          · simp only [List.mem_singleton] at h
            omega
        · rw [hlive2, List.nodup_append]
          refine ⟨hinv.live_nodup, List.nodup_singleton c, ?_⟩
          intro i hi
          have := hinv.live_lt i hi
          simp only [List.mem_singleton]
          omega
        · intro i
          rw [hlive2, hmap2]
          by_cases hik : i = c
          · subst hik
            simp [mapLookup_insert_self]
          · rw [mapLookup_insert_ne hik]
            simp only [List.mem_append, List.mem_singleton, hik, or_false]
            exact hinv.live_iff i
        · show SortedKeys (step st (ROp.reg v)).inner.map
          rw [hmap2]
          exact sortedKeys_mapInsert_top v hinv.sorted hinv.keys_lt
      have hbound' : (step st (ROp.reg v)).inner.next_id + regCount ops < U32 := by
        rw [hnid2]
        omega
      obtain ⟨i1, i2, i3⟩ := ih (step st (ROp.reg v)) hinv' hbound'
      refine ⟨by simpa [runOps] using i1, ?_, ?_⟩
      · rw [show runOps (ROp.reg v :: ops) st = runOps ops (step st (ROp.reg v))
          from rfl, i2, hnid2]
        simp [regCount]
        omega
      · rw [show runOps (ROp.reg v :: ops) st = runOps ops (step st (ROp.reg v))
          from rfl, i3, hiss2, hnid2]
        simp only [regCount, List.range'_succ, List.append_assoc,
          List.singleton_append]
    | drp i =>
      simp only [regCount] at hbound
      have hnid : (step st (ROp.drp i)).inner.next_id = st.inner.next_id := by
        cases hlk : mapLookup i st.inner.map <;>
          simp [step, Inner.remove, hlk]
      have hiss : (step st (ROp.drp i)).issued = st.issued := by
        cases hlk : mapLookup i st.inner.map <;>
          simp [step, Inner.remove, hlk]
      have hlive2 : (step st (ROp.drp i)).live = st.live.erase i := by
        simp [step]
      have hinv' : RunInv (step st (ROp.drp i)) := by
        cases hlk : mapLookup i st.inner.map with
        | none =>
          have hmap2 : (step st (ROp.drp i)).inner.map = st.inner.map := by
            simp [step, Inner.remove, hlk]
          have hni : i ∉ st.live := by
            rw [hinv.live_iff i, hlk]
            simp
          constructor
          · intro k hk
            rw [hmap2] at hk
            rw [hnid]
            exact hinv.keys_lt k hk
          · intro j hj
            rw [hlive2, List.erase_of_not_mem hni] at hj
            rw [hnid]
            exact hinv.live_lt j hj
          · rw [hlive2, List.erase_of_not_mem hni]
            exact hinv.live_nodup
          · intro j
            rw [hlive2, List.erase_of_not_mem hni, hmap2]
            exact hinv.live_iff j
          · show SortedKeys (step st (ROp.drp i)).inner.map
            rw [hmap2]
            exact hinv.sorted
        | some v =>
          have hmap2 : (step st (ROp.drp i)).inner.map = mapRemove i st.inner.map := by
            simp [step, Inner.remove, hlk]
          constructor
          · intro k hk
            rw [hmap2, keys_mapRemove] at hk
            rw [hnid]
            exact hinv.keys_lt k (List.mem_of_mem_erase hk)
          · intro j hj
            rw [hlive2] at hj
            rw [hnid]
            exact hinv.live_lt j (List.mem_of_mem_erase hj)
          · rw [hlive2]
            exact hinv.live_nodup.erase i
          · intro j
            rw [hlive2, hmap2]
            by_cases hji : j = i
            · subst hji
              rw [mapLookup_remove_self j (sortedKeys_nodup hinv.sorted)]
              simp only [Option.isSome_none, Bool.false_eq_true, iff_false]
              exact hinv.live_nodup.not_mem_erase
            · rw [mapLookup_remove_ne hji,
                hinv.live_nodup.mem_erase_iff, and_iff_right hji]
              exact hinv.live_iff j
          · show SortedKeys (step st (ROp.drp i)).inner.map
            rw [hmap2]
            exact sortedKeys_mapRemove i hinv.sorted
      have hbound' : (step st (ROp.drp i)).inner.next_id + regCount ops < U32 := by
        rw [hnid]
        omega
      obtain ⟨i1, i2, i3⟩ := ih (step st (ROp.drp i)) hinv' hbound'
      refine ⟨by simpa [runOps] using i1, ?_, ?_⟩
      · rw [show runOps (ROp.drp i :: ops) st = runOps ops (step st (ROp.drp i))
          from rfl, i2, hnid]
        simp [regCount]
      · rw [show runOps (ROp.drp i :: ops) st = runOps ops (step st (ROp.drp i))
          from rfl, i3, hiss, hnid]
        simp [regCount]

/-- A trace of `n` bare `register` calls (no drops). -/
def pureRegs (n : Nat) : List (ROp Unit) := List.replicate n (ROp.reg ())

/-- Identifiers issued by `n` successive `register` calls on a fresh registry. -/
def issuedIds (n : Nat) : List Nat :=
  (runOps (pureRegs n) ⟨Inner.new, [], []⟩).issued

/-- Wrapping behaviour of a pure registration burst: the counter advances
modulo `2 ^ 32` and the issued identifiers are the successive counter values. -/
theorem runOps_pureRegs (n : Nat) (st : RunState Unit)
    (h : st.inner.next_id < U32) :
    (runOps (pureRegs n) st).inner.next_id = (st.inner.next_id + n) % U32 ∧
    (runOps (pureRegs n) st).issued =
      st.issued ++ (List.range n).map (fun k => (st.inner.next_id + k) % U32) := by
  induction n generalizing st with
  | zero =>
    simp [pureRegs, runOps, Nat.mod_eq_of_lt h]
  | succ n ih =>
    have hrep : pureRegs (n + 1) = ROp.reg () :: pureRegs n := by
      simp [pureRegs, List.replicate]
    set c := st.inner.next_id with hc
    have hnid2 : (step st (ROp.reg ())).inner.next_id = (c + 1) % U32 := by
      simp [step, Inner.register]
    have hiss2 : (step st (ROp.reg ())).issued = st.issued ++ [c] := by
      simp [step, Inner.register]
    have h2 : (step st (ROp.reg ())).inner.next_id < U32 := by
      rw [hnid2]
      exact Nat.mod_lt _ (by norm_num [U32])
    obtain ⟨ih1, ih2⟩ := ih (step st (ROp.reg ())) h2
    have hrun : runOps (pureRegs (n + 1)) st =
        runOps (pureRegs n) (step st (ROp.reg ())) := by
      rw [hrep]
      rfl
    constructor
    · rw [hrun, ih1, hnid2, Nat.mod_add_mod]
      congr 1
      omega
    · rw [hrun, ih2, hiss2, hnid2]
      rw [List.range_succ_eq_map, List.map_cons, List.map_map]
      have hf0 : (c + 0) % U32 = c := by
        simpa using Nat.mod_eq_of_lt h
      have hfs : ((fun k => ((c + 1) % U32 + k) % U32) : Nat → Nat) =
          (fun k => (c + k) % U32) ∘ Nat.succ := by
        funext k
        simp only [Function.comp]
        rw [Nat.mod_add_mod]
        congr 1
        omega
      rw [hfs, hf0]
      simp

/-- Claim C1 (amended): in any trace of `register` calls interleaved with
arbitrary handle drops that performs fewer than `2 ^ 32` registrations, the
issued identifiers are strictly increasing (hence no identifier is issued
twice within the lifetime of one inner state), and at every point the map's
key set lies in `[0, next_id)`. -/
theorem claim1_identifier_freshness {T : Type v} (ops : List (ROp T))
    (h : regCount ops < U32) :
    (runOps ops ⟨Inner.new, [], []⟩).issued.Pairwise (· < ·) ∧
    (runOps ops ⟨Inner.new, [], []⟩).issued.Nodup ∧
    ∀ k ∈ keys (runOps ops ⟨Inner.new, [], []⟩).inner.map,
      k < (runOps ops ⟨Inner.new, [], []⟩).inner.next_id := by
  obtain ⟨hinv, _, hiss⟩ := runOps_spec ops ⟨Inner.new, [], []⟩ runInv_init
    (by simpa [Inner.new] using h)
  have hiss' : (runOps ops ⟨Inner.new, [], []⟩).issued =
      List.range' 0 (regCount ops) := by
    simpa [Inner.new] using hiss
  refine ⟨?_, ?_, hinv.keys_lt⟩
  · rw [hiss']
    exact List.pairwise_lt_range' 0 (regCount ops)
  · rw [hiss']
    exact List.nodup_range' 0 (regCount ops)

/-- Witness for claim C1: a concrete three-operation trace satisfying the
amended claim. -/
theorem claim1_identifier_freshness_witness :
    (runOps [ROp.reg 5, ROp.drp 0, ROp.reg 7] ⟨Inner.new, [], []⟩).issued.Pairwise
      (· < ·) ∧
    (runOps [ROp.reg 5, ROp.drp 0, ROp.reg 7]
      ⟨Inner.new, [], []⟩).issued.Nodup ∧
    ∀ k ∈ keys (runOps [ROp.reg 5, ROp.drp 0, ROp.reg 7]
        ⟨Inner.new, [], []⟩).inner.map,
      k < (runOps [ROp.reg 5, ROp.drp 0, ROp.reg 7]
        ⟨Inner.new, [], []⟩).inner.next_id :=
  claim1_identifier_freshness [ROp.reg 5, ROp.drp 0, ROp.reg 7] (by decide)

/-- Counterexample for claim C1 as stated: after `2 ^ 32 + 1` register calls on one inner
state, identifier 0 has been issued twice and the issued sequence is not
strictly increasing, so the claim fails without a bound on the number of
registrations. -/
theorem claim1_counterexample :
    (issuedIds (U32 + 1)).count 0 = 2 ∧
    ¬ (issuedIds (U32 + 1)).Pairwise (· < ·) := by
  have hiss : ∀ n, issuedIds n = (List.range n).map (fun k => k % U32) := by
    intro n
    have h := (runOps_pureRegs n ⟨Inner.new, [], []⟩
      (by simp [Inner.new, U32])).2
    unfold issuedIds
    rw [h]
    simp [Inner.new]
  have h1 : (List.range U32).map (fun k => k % U32) = List.range U32 := by
    rw [List.map_congr_left fun k hk =>
      Nat.mod_eq_of_lt (List.mem_range.1 hk)]
    exact List.map_id _
  have h2 : ([U32] : List Nat).map (fun k => k % U32) = [0] := by
    rw [List.map_singleton, Nat.mod_self]
  have hsplit : (List.range (U32 + 1)).map (fun k => k % U32) =
      List.range U32 ++ [0] := by
    rw [List.range_succ, List.map_append, h1, h2]
  have hcount : (issuedIds (U32 + 1)).count 0 = 2 := by
    rw [hiss, hsplit, List.count_append,
      List.count_eq_one_of_mem (List.nodup_range U32)
        (List.mem_range.2 (by norm_num [U32]))]
    simp
  refine ⟨hcount, fun hpair => ?_⟩
  have hnd : (issuedIds (U32 + 1)).Nodup := hpair.imp ne_of_lt
  have := List.nodup_iff_count_le_one.1 hnd 0
  omega

/-- Claim C10: the identifier counter is a 32-bit unsigned integer advanced by
one per registration (wrapping modulo `2 ^ 32`), and a burst of `2 ^ 32`
register calls on one inner state returns the counter to 0, so identifier
freshness can only hold for executions with fewer than `2 ^ 32`
registrations per inner state. -/
theorem claim10_u32_wraparound {T : Type v} (s : Inner T) (v : T) :
    (runOps (pureRegs U32) ⟨Inner.new, [], []⟩).inner.next_id = 0 ∧
    ((s.register v).1).next_id = (s.next_id + 1) % 2 ^ 32 ∧
    U32 = 2 ^ 32 := by
  refine ⟨?_, ?_, by norm_num [U32]⟩
  · rw [(runOps_pureRegs U32 ⟨Inner.new, [], []⟩ (by simp [Inner.new, U32])).1]
    simp [Inner.new]
  · show (s.next_id + 1) % U32 = (s.next_id + 1) % 2 ^ 32
    norm_num [U32]

/-- Claim C3: operations on a handle whose owning registry has been fully
dropped (`none` inner state, i.e. the weak-reference upgrade fails) return
the absent result and never fault: `read`/`write` return `None` exactly when
the inner state is gone and `Some` guard exactly when it is alive, and
dropping a stale handle changes nothing and invokes no callback. -/
theorem claim3_stale_handle_safe {T : Type v} (id : Nat) :
    Entry.read (none : Option (Inner T)) id = none ∧
    Entry.write (none : Option (Inner T)) id = none ∧
    (∀ s : Inner T, Entry.read (some s) id = some ⟨s, id⟩ ∧
      Entry.write (some s) id = some ⟨s, id⟩) ∧
    (∀ st : Option (Inner T), (Entry.read st id).isSome = st.isSome ∧
      (Entry.write st id).isSome = st.isSome) ∧
    Entry.drop (none : Option (Inner T)) id = (none, []) := by
  refine ⟨rfl, rfl, fun s => ⟨rfl, rfl⟩, fun st => ?_, rfl⟩
  cases st <;> exact ⟨rfl, rfl⟩

/-- Claim C4: type erasure (`as_generic`) moves the weak reference and the
identifier into the erased handle without touching the registry and without
any callback invocation, and dropping the erased handle afterwards is
exactly one removal of the slot: erase-then-drop equals a single direct
drop, the slot is gone afterwards (no leak), every other slot is untouched,
and at most one callback invocation occurs (exactly the removed pair when
the slot was present and a callback was installed). -/
theorem claim4_erase_then_drop_once {T : Type v} (st : Option (Inner T))
    (s : Inner T) (e : Nat) (hs : SortedKeys s.map) :
    Entry.as_generic st e = (st, [], e) ∧
    Entry.drop (Entry.as_generic st e).1 (Entry.as_generic st e).2.2 =
      Entry.drop st e ∧
    (∃ s', (Entry.drop (some s) e).1 = some s' ∧
      mapLookup e s'.map = none ∧
      (∀ j, j ≠ e → mapLookup j s'.map = mapLookup j s.map) ∧
      (Entry.drop (some s) e).2.length ≤ 1 ∧
      (∀ v, mapLookup e s.map = some v → s.hasCallback = true →
        (Entry.drop (some s) e).2 = [(e, v)])) := by
  refine ⟨rfl, rfl, ?_⟩
  cases hlk : mapLookup e s.map with
  | none =>
    refine ⟨s, ?_, hlk, fun j _ => rfl, ?_, ?_⟩
    · simp [Entry.drop, Inner.remove, hlk]
    · simp [Entry.drop, Inner.remove, hlk]
    · intro v hv
      simp at hv
  | some v =>
    refine ⟨{ s with map := mapRemove e s.map }, ?_, ?_, ?_, ?_, ?_⟩
    · simp [Entry.drop, Inner.remove, hlk]
    · exact mapLookup_remove_self e (sortedKeys_nodup hs)
    · intro j hj
      exact mapLookup_remove_ne hj s.map
    · simp only [Entry.drop, Inner.remove, hlk]
      cases s.hasCallback <;> simp
    · intro v' hv' hcb
      have hvv : v = v' := by injection hv'
      subst hvv
      simp [Entry.drop, Inner.remove, hlk, hcb]

/-- Witness for claim C4: a concrete one-slot registry with a callback installed;
erasing and dropping its handle removes the slot exactly once. -/
theorem claim4_erase_then_drop_once_witness :
    Entry.as_generic (some (⟨[(0, 11)], 1, true⟩ : Inner Nat)) 0 =
      (some ⟨[(0, 11)], 1, true⟩, [], 0) ∧
    Entry.drop (Entry.as_generic (some (⟨[(0, 11)], 1, true⟩ : Inner Nat)) 0).1
        (Entry.as_generic (some (⟨[(0, 11)], 1, true⟩ : Inner Nat)) 0).2.2 =
      Entry.drop (some ⟨[(0, 11)], 1, true⟩) 0 ∧
    (∃ s', (Entry.drop (some (⟨[(0, 11)], 1, true⟩ : Inner Nat)) 0).1 = some s' ∧
      mapLookup 0 s'.map = none ∧
      (∀ j, j ≠ 0 → mapLookup j s'.map =
        mapLookup j ([(0, 11)] : List (Nat × Nat))) ∧
      (Entry.drop (some (⟨[(0, 11)], 1, true⟩ : Inner Nat)) 0).2.length ≤ 1 ∧
      (∀ v, mapLookup 0 ([(0, 11)] : List (Nat × Nat)) = some v → true = true →
        (Entry.drop (some (⟨[(0, 11)], 1, true⟩ : Inner Nat)) 0).2 = [(0, v)])) :=
  claim4_erase_then_drop_once (some ⟨[(0, 11)], 1, true⟩) ⟨[(0, 11)], 1, true⟩ 0
    (by simp [SortedKeys, keys])

/-! ### Registration bursts and complete drop sequences (claim C2) -/

/-- Register each value of a list in order (`register` called repeatedly). -/
def registerAll (s : Inner T) : List T → Inner T
  | [] => s
  | v :: vs => registerAll (s.register v).1 vs

/-- The pairs `(c, v₀), (c+1, v₁), …` produced by a registration burst that
starts at identifier `c`. -/
def idxFrom (c : Nat) : List T → List (Nat × T)
  | [] => []
  | v :: vs => (c, v) :: idxFrom (c + 1) vs

/-- Drop the handles with the given identifiers in order, on a living
registry; collects all callback invocations. -/
def runDrops (s : Inner T) : List Nat → Inner T × List (Nat × T)
  | [] => (s, [])
  | d :: ds =>
    let r := s.remove d
    let r2 := runDrops r.1 ds
    (r2.1, r.2 ++ r2.2)

theorem keys_idxFrom (c : Nat) (vs : List T) :
    keys (idxFrom c vs) = List.range' c vs.length := by
  induction vs generalizing c with
  | nil => simp [idxFrom, keys]
  | cons v vs ih => simp [idxFrom, keys, List.range'_succ, ← ih (c + 1)]

theorem length_idxFrom (c : Nat) (vs : List T) :
    (idxFrom c vs).length = vs.length := by
  induction vs generalizing c with
  | nil => rfl
  | cons v vs ih => simp [idxFrom, ih (c + 1)]

/-- A registration burst on a state whose keys are below the counter simply
appends the indexed values and advances the counter, as long as the counter
does not wrap. -/
theorem registerAll_spec (vs : List T) (s : Inner T)
    (hkeys : ∀ k ∈ keys s.map, k < s.next_id)
    (hbound : s.next_id + vs.length < U32) :
    registerAll s vs =
      ⟨s.map ++ idxFrom s.next_id vs, s.next_id + vs.length, s.hasCallback⟩ := by
  induction vs generalizing s with
  | nil => simp [registerAll, idxFrom]
  | cons v vs ih =>
    simp only [List.length_cons] at hbound
    set c := s.next_id with hc
    have hmod : (c + 1) % U32 = c + 1 := Nat.mod_eq_of_lt (by omega)
    have hreg : (s.register v).1 =
        ⟨s.map ++ [(c, v)], c + 1, s.hasCallback⟩ := by
      simp [Inner.register, hmod, mapInsert_eq_append v hkeys]
    have hkeys' : ∀ k ∈ keys ((s.register v).1).map, k < ((s.register v).1).next_id := by
      rw [hreg]
      dsimp only
      intro k hk
      simp only [keys, List.map_append, List.mem_append, List.map_cons,
        List.map_nil, List.mem_singleton] at hk
      rcases hk with hk | hk
      · have := hkeys k hk
        omega
      · omega
    have hbound' : ((s.register v).1).next_id + vs.length < U32 := by
      rw [hreg]
      dsimp only
      omega
    rw [show registerAll s (v :: vs) = registerAll (s.register v).1 vs from rfl,
      ih _ hkeys' hbound', hreg]
    simp only [idxFrom, List.append_assoc, List.singleton_append]
    congr 1
    simp only [List.length_cons]
    omega

/-- Dropping a permutation of all present identifiers, with a callback
installed, empties the map and makes exactly one callback invocation per
slot, carrying that slot's (identifier, value) pair. -/
theorem runDrops_perm (ds : List Nat) (s : Inner T)
    (hnd : (keys s.map).Nodup) (hcb : s.hasCallback = true)
    (hperm : List.Perm ds (keys s.map)) :
    (runDrops s ds).1 = ⟨[], s.next_id, s.hasCallback⟩ ∧
    List.Perm (runDrops s ds).2 s.map := by
  induction ds generalizing s with
  | nil =>
    have hk : keys s.map = [] := (List.Perm.nil_eq hperm).symm
    have hm : s.map = [] := by
      cases hmap : s.map with
      | nil => rfl
      | cons p m =>
        rw [hmap] at hk
        simp [keys] at hk
    obtain ⟨m, n, c⟩ := s
    simp only at hm
    subst hm
    simp [runDrops]
  | cons d ds ih =>
    have hd : d ∈ keys s.map := hperm.mem_iff.1 (List.mem_cons_self d ds)
    obtain ⟨v, hv⟩ : ∃ v, mapLookup d s.map = some v := by
      have := (mapLookup_isSome_iff_mem_keys d s.map).2 hd
      cases hlk : mapLookup d s.map with
      | none => rw [hlk] at this; cases this
      | some v => exact ⟨v, rfl⟩
    have hrem : s.remove d =
        ({ s with map := mapRemove d s.map }, [(d, v)]) := by
      simp [Inner.remove, hv, hcb]
    have hnd' : (keys (mapRemove d s.map)).Nodup := by
      rw [keys_mapRemove]
      exact hnd.erase d
    have hperm' : List.Perm ds (keys (mapRemove d s.map)) := by
      rw [keys_mapRemove]
      exact (List.cons_perm_iff_perm_erase.1 hperm).2
    obtain ⟨ih1, ih2⟩ := ih { s with map := mapRemove d s.map } hnd' hcb hperm'
    have hrun : runDrops s (d :: ds) =
        ((runDrops { s with map := mapRemove d s.map } ds).1,
         [(d, v)] ++ (runDrops { s with map := mapRemove d s.map } ds).2) := by
      simp [runDrops, hrem]
    rw [hrun]
    refine ⟨ih1, ?_⟩
    rw [List.singleton_append]
    exact (ih2.cons (d, v)).trans (mapRemove_perm hv).symm

/-- Claim C2: dropping a handle removes exactly the one slot carrying its
identifier, leaving every other slot unchanged; and after registering `N`
values on a fresh registry with a removal callback installed, dropping the
`N` handles in any order leaves the registry empty and invokes the callback
exactly `N` times, each invocation carrying the registered
(identifier, value) pair. -/
theorem claim2_handle_drop_removal {T : Type v} (s : Inner T) (i : Nat)
    (vs : List T) (ds : List Nat)
    (hnd : (keys s.map).Nodup)
    (hlen : vs.length < U32)
    (hperm : List.Perm ds (List.range vs.length)) :
    (∀ j, mapLookup j ((s.remove i).1).map =
      if j = i then none else mapLookup j s.map) ∧
    (runDrops (registerAll (Inner.new.setRemoveCallback) vs) ds).1.map = [] ∧
    List.Perm (runDrops (registerAll (Inner.new.setRemoveCallback) vs) ds).2
      (idxFrom 0 vs) ∧
    (runDrops (registerAll (Inner.new.setRemoveCallback) vs) ds).2.length =
      vs.length := by
  have hpart1 : ∀ j, mapLookup j ((s.remove i).1).map =
      if j = i then none else mapLookup j s.map := by
    intro j
    cases hlk : mapLookup i s.map with
    | none =>
      have : (s.remove i).1 = s := by
        simp [Inner.remove, hlk]
      rw [this]
      by_cases hj : j = i
      · subst hj
        simp [hlk]
      · simp [hj]
    | some v =>
      have : (s.remove i).1 = { s with map := mapRemove i s.map } := by
        simp [Inner.remove, hlk]
      rw [this]
      by_cases hj : j = i
      · subst hj
        simp [mapLookup_remove_self j hnd]
      · simp only [if_neg hj]
        exact mapLookup_remove_ne hj s.map
  have hsreg : registerAll (Inner.new.setRemoveCallback) vs =
      ⟨idxFrom 0 vs, vs.length, true⟩ := by
    have := registerAll_spec vs (Inner.new.setRemoveCallback)
      (by simp [Inner.new, Inner.setRemoveCallback, keys])
      (by simpa [Inner.new, Inner.setRemoveCallback] using hlen)
    simpa [Inner.new, Inner.setRemoveCallback] using this
  have hknd : (keys (idxFrom 0 vs)).Nodup := by
    rw [keys_idxFrom]
    exact List.nodup_range' 0 vs.length
  have hperm2 : List.Perm ds (keys (idxFrom 0 vs)) := by
    rw [keys_idxFrom, ← List.range_eq_range']
    exact hperm
  obtain ⟨h1, h2⟩ := runDrops_perm ds ⟨idxFrom 0 vs, vs.length, true⟩
    (by simpa using hknd) rfl (by simpa using hperm2)
  refine ⟨hpart1, ?_, ?_, ?_⟩
  · rw [hsreg, h1]
  · rw [hsreg]
    simpa using h2
  · rw [hsreg]
    rw [h2.length_eq]
    simpa using length_idxFrom 0 vs

/-- Witness for claim C2: two registrations with a callback installed, handles
dropped in reverse order; the registry is left empty and the callback log is
a permutation of the registered pairs. -/
theorem claim2_handle_drop_removal_witness :
    (∀ j, mapLookup j (((⟨[(0, 5), (1, 6)], 2, true⟩ : Inner Nat).remove 0).1).map =
      if j = 0 then none else mapLookup j ([(0, 5), (1, 6)] : List (Nat × Nat))) ∧
    (runDrops (registerAll (Inner.new.setRemoveCallback) [10, 20]) [1, 0]).1.map
      = [] ∧
    List.Perm (runDrops (registerAll (Inner.new.setRemoveCallback) [10, 20])
      [1, 0]).2 (idxFrom 0 [10, 20]) ∧
    (runDrops (registerAll (Inner.new.setRemoveCallback) [10, 20]) [1, 0]).2.length
      = ([10, 20] : List Nat).length :=
  claim2_handle_drop_removal ⟨[(0, 5), (1, 6)], 2, true⟩ 0 [10, 20] [1, 0]
    (by decide) (by decide) (by decide)

/-! ### Further association-list lemmas for the keyed registry -/

theorem mapLookup_mem [DecidableEq K] {k : K} {v : T} {m : List (K × T)}
    (h : mapLookup k m = some v) : (k, v) ∈ m := by
  induction m with
  | nil => simp [mapLookup] at h
  | cons p m ih =>
    obtain ⟨k', v'⟩ := p
    by_cases h1 : k = k'
    · subst h1
      have hv : v' = v := by simpa [mapLookup] using h
      subst hv
      exact List.mem_cons_self _ _
    · simp only [mapLookup, if_neg h1] at h
      exact List.mem_cons_of_mem _ (ih h)

theorem mapRemove_subset [DecidableEq K] (k : K) {q : K × T} {m : List (K × T)}
    (h : q ∈ mapRemove k m) : q ∈ m := by
  induction m with
  | nil => simp [mapRemove] at h
  | cons p m ih =>
    obtain ⟨k', v'⟩ := p
    by_cases h1 : k = k'
    · subst h1
      simp only [mapRemove, if_pos rfl] at h
      exact List.mem_cons_of_mem _ h
    · simp only [mapRemove, if_neg h1, List.mem_cons] at h
      rcases h with h | h
      · exact h ▸ List.mem_cons_self _ _
      · exact List.mem_cons_of_mem _ (ih h)

/-- Sorted insertion at an arbitrary key preserves key-sortedness. -/
theorem sortedKeys_mapInsert [LinearOrder K] (k : K) (v : T) {m : List (K × T)}
    (hs : SortedKeys m) : SortedKeys (mapInsert k v m) := by
  induction m with
  | nil => simp [mapInsert, SortedKeys, keys]
  | cons p m ih =>
    obtain ⟨k', v'⟩ := p
    simp only [SortedKeys, keys, List.map_cons, List.pairwise_cons] at hs
    by_cases h1 : k < k'
    · simp only [mapInsert, if_pos h1, SortedKeys, keys, List.map_cons,
        List.pairwise_cons]
      refine ⟨?_, hs.1, hs.2⟩
      intro y hy
      rcases List.mem_cons.1 hy with hy | hy
      · subst hy
        exact h1
      · exact lt_trans h1 (hs.1 y hy)
    · by_cases h2 : k = k'
      · subst h2
        simp only [mapInsert, if_neg h1, SortedKeys, keys, List.map_cons,
          List.pairwise_cons, if_true, eq_self_iff_true]
        exact hs
      · simp only [mapInsert, if_neg h1, if_neg h2, SortedKeys, keys,
          List.map_cons, List.pairwise_cons]
        refine ⟨?_, ih hs.2⟩
        intro y hy
        rcases mem_keys_mapInsert v (show y ∈ keys (mapInsert k v m) from hy)
          with hy' | hy'
        · subst hy'
          exact lt_of_le_of_ne (not_lt.1 h1) (Ne.symm h2)
        · exact hs.1 y hy'

/-! ### The KeyedRegistry inner state (`registry_map.rs`)

`Inner<K, T>` of `RegistryMap` holds the forward key-to-value map, the
reverse identifier-to-key map `entry_map`, the `u32` counter and the
optional removal callback (opaque, tracked as `hasCallback`; invocations
`(identifier, key, value)` are returned by the operations). -/

inductive RegistryMapError where
  | KeyAlreadyExists
deriving DecidableEq

structure MInner (K : Type u) (T : Type v) where
  map : List (K × T)
  entry_map : List (Nat × K)
  next_id : Nat
  hasCallback : Bool
deriving DecidableEq

/-- Model of `RegistryMap::new`. -/
def MInner.new : MInner K T := ⟨[], [], 0, false⟩

/-- Model of `RegistryMap::set_remove_callback`: installs a callback (replacing any). -/
def MInner.setRemoveCallback (s : MInner K T) : MInner K T :=
  { s with hasCallback := true }

/-- Model of `RegistryMap::register`: under the exclusive lock, fail with
`KeyAlreadyExists` (leaving the state untouched) when the key is present;
otherwise insert `(key, value)` in the forward map and `(next_id, key)` in
the reverse map, increment the wrapping counter, and return the issued
identifier. -/
def MInner.register [LinearOrder K] (s : MInner K T) (key : K) (value : T) :
    MInner K T × Except RegistryMapError Nat :=
  if containsK key s.map then (s, Except.error RegistryMapError.KeyAlreadyExists)
  else
    ({ map := mapInsert key value s.map,
       entry_map := mapInsert s.next_id key s.entry_map,
       next_id := (s.next_id + 1) % U32,
       hasCallback := s.hasCallback }, Except.ok s.next_id)

/-- Model of `Inner::remove` for the keyed registry: look up and remove the reverse
entry — `expect` panics (modelled as `none`) when the identifier is absent —
then remove the forward entry for its key, invoking the callback when a
forward value was removed and a callback is installed. -/
def MInner.remove [LinearOrder K] (s : MInner K T) (entry_id : Nat) :
    Option (MInner K T × List (Nat × K × T)) :=
  match mapLookup entry_id s.entry_map with
  | none => none
  | some key =>
    match mapLookup key s.map with
    | none => some ({ s with entry_map := mapRemove entry_id s.entry_map }, [])
    | some value =>
      some ({ s with entry_map := mapRemove entry_id s.entry_map,
                     map := mapRemove key s.map },
        if s.hasCallback then [(entry_id, key, value)] else [])

/-- Model of `Inner::get` for the keyed registry: reverse lookup, then forward
lookup; a pure read, the state is untouched. -/
def MInner.get [LinearOrder K] (s : MInner K T) (entry_id : Nat) : Option T :=
  match mapLookup entry_id s.entry_map with
  | none => none
  | some key => mapLookup key s.map

/-- A value update at a key through the write guard's `get_mut`. -/
def MInner.updateValue [LinearOrder K] (s : MInner K T) (key : K) (value : T) :
    MInner K T :=
  { s with map := mapUpdate key value s.map }

/-- The claim's mutual-consistency invariant: every reverse-map entry's key
is present in the forward map, and every forward-map key is the image of
exactly one identifier of the reverse map. -/
abbrev MapConsistent [LinearOrder K] (s : MInner K T) : Prop :=
  (∀ p ∈ s.entry_map, p.2 ∈ keys s.map) ∧
  (∀ k ∈ keys s.map, s.entry_map.countP (fun p => decide (p.2 = k)) = 1)

/-- The full inductive invariant of a keyed registry state: mutual
consistency, sortedness of both `BTreeMap`s, and all issued identifiers
below the counter. -/
abbrev MInv [LinearOrder K] (s : MInner K T) : Prop :=
  MapConsistent s ∧ SortedKeys s.map ∧ SortedKeys s.entry_map ∧
  ∀ p ∈ s.entry_map, p.1 < s.next_id

/-- Claim C5: registering an already-present key returns the duplicate-key
error and leaves the whole state unchanged; once the handle owning that
key's slot is dropped (removing its reverse entry and its forward entry),
registering the key again succeeds. -/
theorem claim5_duplicate_key {K : Type u} {T : Type v} [LinearOrder K]
    (s : MInner K T) (k : K) (v v' : T) (id : Nat)
    (hdup : containsK k s.map = true)
    (hrev : mapLookup id s.entry_map = some k)
    (hsort : SortedKeys s.map) :
    s.register k v = (s, Except.error RegistryMapError.KeyAlreadyExists) ∧
    ∃ s' log, s.remove id = some (s', log) ∧
      (s'.register k v').2 = Except.ok s'.next_id := by
  constructor
  · simp [MInner.register, hdup]
  · obtain ⟨v0, hv0⟩ : ∃ v0, mapLookup k s.map = some v0 := by
      unfold containsK at hdup
      cases hlk : mapLookup k s.map with
      | none => rw [hlk] at hdup; simp at hdup
      | some v0 => exact ⟨v0, rfl⟩
    refine ⟨{ s with entry_map := mapRemove id s.entry_map,
                     map := mapRemove k s.map },
      if s.hasCallback then [(id, k, v0)] else [], ?_, ?_⟩
    · simp [MInner.remove, hrev, hv0]
    · have hgone : containsK k (mapRemove k s.map) = false := by
        unfold containsK
        rw [mapLookup_remove_self k (sortedKeys_nodup hsort)]
        rfl
      simp [MInner.register, hgone]

/-- Witness for claim C5: a keyed registry holding key 5 rejects a second
registration of 5; after dropping the owning handle, key 5 registers
successfully. -/
theorem claim5_duplicate_key_witness :
    (⟨[(5, 100)], [(0, 5)], 1, false⟩ : MInner Nat Nat).register 5 1 =
      (⟨[(5, 100)], [(0, 5)], 1, false⟩,
        Except.error RegistryMapError.KeyAlreadyExists) ∧
    ∃ s' log,
      (⟨[(5, 100)], [(0, 5)], 1, false⟩ : MInner Nat Nat).remove 0 =
        some (s', log) ∧
      (s'.register 5 2).2 = Except.ok s'.next_id :=
  claim5_duplicate_key ⟨[(5, 100)], [(0, 5)], 1, false⟩ 5 1 2 0
    (by decide) (by decide) (by decide)

/-- Claim C6: the keyed registry's operations preserve the mutual-consistency
invariant between forward and reverse maps: the fresh state satisfies it,
`register` (both outcomes), a successful `remove` (handle drop), and a value
update through a write guard all preserve it.  Reads (`get`) do not touch
the state.  The auxiliary clauses of `MInv` (sortedness and
identifiers-below-counter) are the inductive strengthening that makes the
invariant preservable; the counter-room hypothesis rules out the `u32`
wrap (cf. C10). -/
theorem claim6_map_consistency {K : Type u} {T : Type v} [LinearOrder K]
    (s : MInner K T) (k : K) (v : T) (i : Nat)
    (hinv : MInv s) (hroom : s.next_id + 1 < U32) :
    MInv (MInner.new : MInner K T) ∧
    MInv (s.register k v).1 ∧
    (∀ r, s.remove i = some r → MInv r.1) ∧
    MInv (s.updateValue k v) := by
  obtain ⟨⟨hc1, hc2⟩, hsm, hse, haux⟩ := hinv
  refine ⟨?_, ?_, ?_, ?_⟩
  · exact ⟨⟨by simp [MInner.new], by simp [MInner.new, keys]⟩,
      by simp [MInner.new, SortedKeys, keys], by simp [MInner.new, SortedKeys, keys],
      by simp [MInner.new]⟩
  · cases hct : containsK k s.map with
    | true =>
      have : (s.register k v).1 = s := by
        simp [MInner.register, hct]
      rw [this]
      exact ⟨⟨hc1, hc2⟩, hsm, hse, haux⟩
    | false =>
      have hreg : (s.register k v).1 =
          ⟨mapInsert k v s.map, mapInsert s.next_id k s.entry_map,
            (s.next_id + 1) % U32, s.hasCallback⟩ := by
        simp [MInner.register, hct]
      have hknotin : k ∉ keys s.map := by
        rw [← mapLookup_isSome_iff_mem_keys]
        unfold containsK at hct
        simp [hct]
      have hfresh : s.next_id ∉ keys s.entry_map := by
        intro hmem
        obtain ⟨p, hp, hp1⟩ := List.mem_map.1 hmem
        have := haux p hp
        omega
      have perm_m : List.Perm (mapInsert k v s.map) ((k, v) :: s.map) :=
        mapInsert_perm v hknotin
      have perm_e : List.Perm (mapInsert s.next_id k s.entry_map)
          ((s.next_id, k) :: s.entry_map) := mapInsert_perm k hfresh
      have hmem_m : ∀ j, j ∈ keys (mapInsert k v s.map) ↔
          j = k ∨ j ∈ keys s.map := by
        intro j
        unfold keys
        rw [(perm_m.map Prod.fst).mem_iff]
        simp
      have hmod : (s.next_id + 1) % U32 = s.next_id + 1 :=
        Nat.mod_eq_of_lt (by omega)
      rw [hreg]
      refine ⟨⟨?_, ?_⟩, ?_, ?_, ?_⟩
      · intro p hp
        dsimp only at hp ⊢
        rcases List.mem_cons.1 (perm_e.mem_iff.1 hp) with hp' | hp'
        · subst hp'
          exact (hmem_m k).2 (Or.inl rfl)
        · exact (hmem_m p.2).2 (Or.inr (hc1 p hp'))
      · intro k' hk'
        dsimp only at hk' ⊢
        rw [perm_e.countP_eq, List.countP_cons]
        rcases (hmem_m k').1 hk' with hk'' | hk''
        · subst hk''
          have hzero : s.entry_map.countP (fun p => decide (p.2 = k')) = 0 := by
            rw [List.countP_eq_zero]
            intro p hp
            simp only [decide_eq_true_eq]
            intro hpk
            exact hknotin (hpk ▸ hc1 p hp)
          rw [hzero]
          simp
        · have hne : k ≠ k' := by
            intro hkk
            exact hknotin (hkk ▸ hk'')
          rw [hc2 k' hk'']
          simp [hne]
      · dsimp only
        exact sortedKeys_mapInsert k v hsm
      · dsimp only
        exact sortedKeys_mapInsert s.next_id k hse
      · intro p hp
        dsimp only at hp ⊢
        rw [hmod]
        rcases List.mem_cons.1 (perm_e.mem_iff.1 hp) with hp' | hp'
        · subst hp'
          omega
        · have := haux p hp'
          omega
  · intro r hrem
    cases hlk : mapLookup i s.entry_map with
    | none =>
      simp [MInner.remove, hlk] at hrem
    | some key =>
      have hkey_mem : key ∈ keys s.map := hc1 (i, key) (mapLookup_mem hlk)
      obtain ⟨value, hfk⟩ : ∃ value, mapLookup key s.map = some value := by
        have := (mapLookup_isSome_iff_mem_keys key s.map).2 hkey_mem
        cases hfk : mapLookup key s.map with
        | none => rw [hfk] at this; cases this
        | some value => exact ⟨value, rfl⟩
      simp only [MInner.remove, hlk, hfk] at hrem
      have hr1 := Option.some.inj hrem
      subst hr1
      dsimp only
      have perm_e : List.Perm s.entry_map
          ((i, key) :: mapRemove i s.entry_map) := mapRemove_perm hlk
      have hcount0 : (mapRemove i s.entry_map).countP
          (fun p => decide (p.2 = key)) = 0 := by
        have h1 := hc2 key hkey_mem
        rw [perm_e.countP_eq, List.countP_cons_of_pos _ _ (by simp)] at h1
        omega
      have hnot_key : ∀ p ∈ mapRemove i s.entry_map, p.2 ≠ key := by
        intro p hp hpk
        have := List.countP_eq_zero.1 hcount0 p hp
        simp [hpk] at this
      refine ⟨⟨?_, ?_⟩, ?_, ?_, ?_⟩
      · intro p hp
        dsimp only at hp ⊢
        have hpm : p ∈ s.entry_map := mapRemove_subset i hp
        have hkm : p.2 ∈ keys s.map := hc1 p hpm
        rw [keys_mapRemove]
        exact (List.mem_erase_of_ne (hnot_key p hp)).2 hkm
      · intro k' hk'
        dsimp only at hk' ⊢
        rw [keys_mapRemove] at hk'
        have hk'ne : k' ≠ key ∧ k' ∈ keys s.map :=
          ((sortedKeys_nodup hsm).mem_erase_iff).1 hk'
        have h1 := hc2 k' hk'ne.2
        rw [perm_e.countP_eq, List.countP_cons] at h1
        have hne' : ¬ (key = k') := fun h => hk'ne.1 h.symm
        simp only [decide_eq_true_eq, if_neg hne', Nat.add_zero] at h1
        exact h1
      · dsimp only
        exact sortedKeys_mapRemove key hsm
      · dsimp only
        exact sortedKeys_mapRemove i hse
      · intro p hp
        dsimp only at hp ⊢
        exact haux p (mapRemove_subset i hp)
  · refine ⟨⟨?_, ?_⟩, ?_, ?_, ?_⟩
    · intro p hp
      dsimp only [MInner.updateValue] at hp ⊢
      rw [keys_mapUpdate]
      exact hc1 p hp
    · intro k' hk'
      dsimp only [MInner.updateValue] at hk' ⊢
      rw [keys_mapUpdate] at hk'
      exact hc2 k' hk'
    · show SortedKeys (mapUpdate k v s.map)
      unfold SortedKeys
      rw [keys_mapUpdate]
      exact hsm
    · exact hse
    · exact haux

/-- Witness for claim C6: the preservation theorem applied to a concrete
consistent one-slot keyed registry. -/
theorem claim6_map_consistency_witness :
    MInv (MInner.new : MInner Nat Nat) ∧
    MInv ((⟨[(5, 100)], [(0, 5)], 1, false⟩ : MInner Nat Nat).register 7 3).1 ∧
    (∀ r, (⟨[(5, 100)], [(0, 5)], 1, false⟩ : MInner Nat Nat).remove 0 = some r →
      MInv r.1) ∧
    MInv ((⟨[(5, 100)], [(0, 5)], 1, false⟩ : MInner Nat Nat).updateValue 7 3) :=
  claim6_map_consistency ⟨[(5, 100)], [(0, 5)], 1, false⟩ 7 3 0
    (by decide) (by decide)

/-! ### Event / Observer (`event.rs`)

`Event<Args>` wraps a `Registry<Box<dyn EventObserver<Args>>>`.  The boxed
observer objects are opaque values (type `O` below); `register_observer`
is `register` followed by `as_generic`, so observer lifetimes follow the
generic registry-trace model `runOps`.  `dispatch` takes the read guard and
invokes `notify` on every stored observer in `BTreeMap` iteration order
(ascending identifier), passing a reference to the same `args`; the
invocation list records `(identifier, observer, args)` per call. -/

def dispatchLog {O : Type u} {A : Type v} (s : Inner O) (args : A) :
    List (Nat × O × A) :=
  s.map.map (fun p => (p.1, p.2, args))

/-- Claim C7: after any trace of observer registrations and handle drops (with
fewer than `2 ^ 32` registrations, cf. C10), `dispatch args` invokes exactly
the currently-registered observers, each exactly once, in ascending
identifier order, all with the same `args`; observers whose handles have
been dropped (identifiers no longer live) are not invoked. -/
theorem claim7_dispatch_order {O : Type u} {A : Type v} [DecidableEq O]
    [DecidableEq A] (ops : List (ROp O)) (args : A)
    (h : regCount ops < U32) :
    ((dispatchLog (runOps ops ⟨Inner.new, [], []⟩).inner args).map
      (fun x => x.1)).Pairwise (· < ·) ∧
    (dispatchLog (runOps ops ⟨Inner.new, [], []⟩).inner args).Nodup ∧
    (∀ p ∈ (runOps ops ⟨Inner.new, [], []⟩).inner.map,
      (p.1, p.2, args) ∈
        dispatchLog (runOps ops ⟨Inner.new, [], []⟩).inner args) ∧
    (∀ x ∈ dispatchLog (runOps ops ⟨Inner.new, [], []⟩).inner args,
      x.2.2 = args) ∧
    (∀ i, i ∉ (runOps ops ⟨Inner.new, [], []⟩).live →
      ∀ x ∈ dispatchLog (runOps ops ⟨Inner.new, [], []⟩).inner args,
        x.1 ≠ i) := by
  obtain ⟨hinv, -, -⟩ := runOps_spec ops ⟨Inner.new, [], []⟩ runInv_init
    (by simpa [Inner.new] using h)
  set r := runOps ops ⟨Inner.new, [], []⟩ with hr
  have hids : (dispatchLog r.inner args).map (fun x => x.1) = keys r.inner.map := by
    simp [dispatchLog, keys, List.map_map, Function.comp]
  have hmnd : r.inner.map.Nodup :=
    List.Nodup.of_map Prod.fst (sortedKeys_nodup hinv.sorted)
  have hinj : Function.Injective
      (fun p : Nat × O => (p.1, p.2, args)) := by
    intro a b hab
    simp only [Prod.mk.injEq] at hab
    exact Prod.ext hab.1 hab.2.1
  have hlognd : (dispatchLog r.inner args).Nodup := hmnd.map hinj
  refine ⟨?_, hlognd, ?_, ?_, ?_⟩
  · rw [hids]
    exact hinv.sorted
  · intro p hp
    exact List.mem_map_of_mem _ hp
  · intro x hx
    obtain ⟨p, -, hpx⟩ := List.mem_map.1 hx
    rw [← hpx]
  · intro i hi x hx hxi
    obtain ⟨p, hp, hpx⟩ := List.mem_map.1 hx
    apply hi
    rw [hinv.live_iff, ← hxi, ← hpx]
    show (mapLookup p.1 r.inner.map).isSome = true
    rw [mapLookup_isSome_iff_mem_keys]
    exact List.mem_map_of_mem Prod.fst hp

/-- Witness for claim C7: two observers registered, the first one dropped; the
dispatch log properties hold for the resulting state. -/
theorem claim7_dispatch_order_witness :
    ((dispatchLog (runOps [ROp.reg 5, ROp.reg 6, ROp.drp 0]
        ⟨Inner.new, [], []⟩).inner (9 : Nat)).map
      (fun x => x.1)).Pairwise (· < ·) ∧
    (dispatchLog (runOps [ROp.reg 5, ROp.reg 6, ROp.drp 0]
        ⟨Inner.new, [], []⟩).inner (9 : Nat)).Nodup ∧
    (∀ p ∈ (runOps [ROp.reg 5, ROp.reg 6, ROp.drp 0]
        ⟨Inner.new, [], []⟩).inner.map,
      (p.1, p.2, 9) ∈ dispatchLog (runOps [ROp.reg 5, ROp.reg 6, ROp.drp 0]
        ⟨Inner.new, [], []⟩).inner (9 : Nat)) ∧
    (∀ x ∈ dispatchLog (runOps [ROp.reg 5, ROp.reg 6, ROp.drp 0]
        ⟨Inner.new, [], []⟩).inner (9 : Nat), x.2.2 = 9) ∧
    (∀ i, i ∉ (runOps [ROp.reg 5, ROp.reg 6, ROp.drp 0]
        ⟨Inner.new, [], []⟩).live →
      ∀ x ∈ dispatchLog (runOps [ROp.reg 5, ROp.reg 6, ROp.drp 0]
        ⟨Inner.new, [], []⟩).inner (9 : Nat), x.1 ≠ i) :=
  claim7_dispatch_order [ROp.reg 5, ROp.reg 6, ROp.drp 0] 9 (by decide)

/-! ### TracedRegistry (`traced_registry.rs`)

`TracedRegistry<T>` composes a `Registry<T>` with an
`Event<(TracedRegistryEvent, EntryId, T)>`.  `new` installs a removal
callback that dispatches `UnRegister` events; `register` registers a clone
of the value and dispatches a `Register` event with the assigned
identifier.  Dispatched tuples are collected in an append-only observation
log. -/

inductive TracedRegistryEvent where
  | Register
  | UnRegister
deriving DecidableEq

theorem mem_mapInsert_pair [LinearOrder K] {q : K × T} {k : K} (v : T)
    {m : List (K × T)} (h : q ∈ mapInsert k v m) : q = (k, v) ∨ q ∈ m := by
  induction m with
  | nil => simpa [mapInsert] using h
  | cons p m ih =>
    obtain ⟨k', v'⟩ := p
    by_cases h1 : k < k'
    · simpa [mapInsert, h1] using h
    · by_cases h2 : k = k'
      · subst h2
        simp only [mapInsert, if_neg h1, if_true, eq_self_iff_true,
          List.mem_cons] at h
        rcases h with h | h
        · exact Or.inl h
        · exact Or.inr (List.mem_cons_of_mem _ h)
      · simp only [mapInsert, if_neg h1, if_neg h2, List.mem_cons] at h
        rcases h with h | h
        · exact Or.inr (h ▸ List.mem_cons_self _ _)
        · rcases ih h with h | h
          · exact Or.inl h
          · exact Or.inr (List.mem_cons_of_mem _ h)

/-- Model of `TracedRegistry::new`: a fresh registry with the `UnRegister`-dispatching
removal callback installed. -/
def tracedNew : Inner T := Inner.setRemoveCallback Inner.new

/-- Model of `TracedRegistry::register`: register a clone of the value, then dispatch
`(Register, assigned id, value)`.  Returns the new state, the handle's
identifier and the dispatched events. -/
def tracedRegister (s : Inner T) (v : T) :
    Inner T × Nat × List (TracedRegistryEvent × Nat × T) :=
  let r := s.register v
  (r.1, r.2, [(TracedRegistryEvent.Register, r.2, v)])

/-- Dropping a `TracedRegistry` handle: `Inner::remove` runs and its
callback invocations are dispatched as `UnRegister` events. -/
def tracedDrop (s : Inner T) (id : Nat) :
    Inner T × List (TracedRegistryEvent × Nat × T) :=
  let r := s.remove id
  (r.1, r.2.map (fun p => (TracedRegistryEvent.UnRegister, p.1, p.2)))

inductive TOp (T : Type v) where
  | reg (v : T)
  | drp (i : Nat)

/-- Run traced operations, accumulating the observation log. -/
def tracedRun : List (TOp T) →
    Inner T × List (TracedRegistryEvent × Nat × T) →
    Inner T × List (TracedRegistryEvent × Nat × T)
  | [], st => st
  | TOp.reg v :: ops, st =>
    let r := tracedRegister st.1 v
    tracedRun ops (r.1, st.2 ++ r.2.2)
  | TOp.drp i :: ops, st =>
    let r := tracedDrop st.1 i
    tracedRun ops (r.1, st.2 ++ r.2)

/-- Every `UnRegister` observation is preceded by a matching `Register`
observation for the same (identifier, value). -/
abbrev LogOrdered (log : List (TracedRegistryEvent × Nat × T)) : Prop :=
  ∀ (n i : Nat) (v : T),
    log[n]? = some (TracedRegistryEvent.UnRegister, i, v) →
    ∃ m, m < n ∧ log[m]? = some (TracedRegistryEvent.Register, i, v)

theorem logOrdered_append_register (log : List (TracedRegistryEvent × Nat × T))
    (hord : LogOrdered log) (i : Nat) (v : T) :
    LogOrdered (log ++ [(TracedRegistryEvent.Register, i, v)]) := by
  intro n j w hn
  by_cases hlt : n < log.length
  · rw [List.getElem?_append_left hlt] at hn
    obtain ⟨m, hm, hm2⟩ := hord n j w hn
    exact ⟨m, hm, by rw [List.getElem?_append_left (lt_trans hm hlt)]; exact hm2⟩
  · rw [List.getElem?_append_right (not_lt.1 hlt)] at hn
    cases hidx : n - log.length with
    | zero =>
      rw [hidx] at hn
      simp at hn
    | succ m =>
      rw [hidx] at hn
      simp at hn

theorem logOrdered_append_unregister (log : List (TracedRegistryEvent × Nat × T))
    (hord : LogOrdered log) (i : Nat) (v : T)
    (hreg : (TracedRegistryEvent.Register, i, v) ∈ log) :
    LogOrdered (log ++ [(TracedRegistryEvent.UnRegister, i, v)]) := by
  intro n j w hn
  by_cases hlt : n < log.length
  · rw [List.getElem?_append_left hlt] at hn
    obtain ⟨m, hm, hm2⟩ := hord n j w hn
    exact ⟨m, hm, by rw [List.getElem?_append_left (lt_trans hm hlt)]; exact hm2⟩
  · rw [List.getElem?_append_right (not_lt.1 hlt)] at hn
    cases hidx : n - log.length with
    | zero =>
      rw [hidx] at hn
      simp only [List.getElem?_cons_zero, Option.some.injEq] at hn
      have hji : j = i := by
        have := congrArg (fun q => q.2.1) hn.symm
        simpa using this
      have hjw : w = v := by
        have := congrArg (fun q => q.2.2) hn.symm
        simpa using this
      subst hji
      subst hjw
      obtain ⟨m, hm⟩ := List.getElem?_of_mem hreg
      have hmlt : m < log.length := (List.getElem?_eq_some.1 hm).1
      have hnlen : n = log.length := by omega
      refine ⟨m, by omega, ?_⟩
      rw [List.getElem?_append_left hmlt]
      exact hm
    | succ m =>
      rw [hidx] at hn
      simp at hn

/-- Along any traced run, every slot present in the map has its `Register`
event already in the log, and the log stays `UnRegister`-after-`Register`
ordered. -/
theorem tracedRun_spec (ops : List (TOp T)) (s : Inner T)
    (log : List (TracedRegistryEvent × Nat × T))
    (hcb : s.hasCallback = true)
    (hmap : ∀ p ∈ s.map, (TracedRegistryEvent.Register, p.1, p.2) ∈ log)
    (hord : LogOrdered log) :
    LogOrdered (tracedRun ops (s, log)).2 := by
  induction ops generalizing s log with
  | nil => exact hord
  | cons op ops ih =>
    cases op with
    | reg v =>
      show LogOrdered (tracedRun ops ((s.register v).1,
        log ++ [(TracedRegistryEvent.Register, s.next_id, v)])).2
      apply ih
      · simpa [Inner.register] using hcb
      · intro p hp
        have hp' : p ∈ mapInsert s.next_id v s.map := by
          simpa [Inner.register] using hp
        rcases mem_mapInsert_pair v hp' with hp'' | hp''
        · subst hp''
          exact List.mem_append_right _ (List.mem_singleton_self _)
        · exact List.mem_append_left _ (hmap p hp'')
      · exact logOrdered_append_register log hord s.next_id v
    | drp i =>
      cases hlk : mapLookup i s.map with
      | none =>
        have hstep : tracedRun (TOp.drp i :: ops) (s, log) =
            tracedRun ops (s, log) := by
          simp [tracedRun, tracedDrop, Inner.remove, hlk]
        rw [hstep]
        exact ih s log hcb hmap hord
      | some w =>
        have hstep : tracedRun (TOp.drp i :: ops) (s, log) =
            tracedRun ops ({ s with map := mapRemove i s.map },
              log ++ [(TracedRegistryEvent.UnRegister, i, w)]) := by
          simp [tracedRun, tracedDrop, Inner.remove, hlk, hcb]
        rw [hstep]
        apply ih
        · exact hcb
        · intro p hp
          exact List.mem_append_left _ (hmap p (mapRemove_subset i hp))
        · exact logOrdered_append_unregister log hord i w
            (hmap (i, w) (mapLookup_mem hlk))

/-- Claim C8: on a `TracedRegistry`, registering `v` dispatches exactly one
`Register` event carrying the assigned identifier and `v`; dropping the
handle of a slot holding `w` dispatches exactly one `UnRegister` event
carrying the same identifier and `w`; and in every traced run from a fresh
traced registry, each `UnRegister` observation for a slot is preceded in
the log by the matching `Register` observation. -/
theorem claim8_traced_events {T : Type v} (s : Inner T) (v w : T) (id : Nat)
    (ops : List (TOp T))
    (hv : mapLookup id s.map = some w) (hcb : s.hasCallback = true) :
    (tracedRegister s v).2.2 = [(TracedRegistryEvent.Register, s.next_id, v)] ∧
    (tracedDrop s id).2 = [(TracedRegistryEvent.UnRegister, id, w)] ∧
    LogOrdered (tracedRun ops ((tracedNew : Inner T), [])).2 := by
  refine ⟨rfl, ?_, ?_⟩
  · simp [tracedDrop, Inner.remove, hv, hcb]
  · apply tracedRun_spec
    · rfl
    · intro p hp
      simp [tracedNew, Inner.new, Inner.setRemoveCallback] at hp
    · intro n i u hn
      simp at hn

/-- Witness for claim C8: a one-slot traced registry; register and drop dispatch
their single events, and a concrete traced run is order-correct. -/
theorem claim8_traced_events_witness :
    (tracedRegister (⟨[(0, 7)], 1, true⟩ : Inner Nat) 5).2.2 =
      [(TracedRegistryEvent.Register, 1, 5)] ∧
    (tracedDrop (⟨[(0, 7)], 1, true⟩ : Inner Nat) 0).2 =
      [(TracedRegistryEvent.UnRegister, 0, 7)] ∧
    LogOrdered (tracedRun [TOp.reg 3, TOp.drp 0]
      ((tracedNew : Inner Nat), [])).2 :=
  claim8_traced_events ⟨[(0, 7)], 1, true⟩ 5 7 0 [TOp.reg 3, TOp.drp 0]
    (by decide) rfl

/-! ### Typed guard access (`entry.rs` guards, `registry.rs` `Inner::get`)

`Inner<T>` stores values of type `T`; the `RegistryInterface::get`
methods hand them out as `&dyn Any`, whose dynamic type is the registry's
element type, and `EntryReadGuard::get` / `EntryWriteGuard::get`/`get_mut`
panic with "Entry not found in the Registry" when the slot lookup fails and
with "Failed to downcast Entry" when the `downcast_ref::<T>` to the
handle's type parameter fails.  Dynamic types are modelled as `Nat` tags:
the downcast succeeds iff the handle's tag equals the registry's element
tag (a non-erased handle issued by `Registry<T>::register` carries the
registry's own tag; `as_generic` retags the handle with `()`'s tag). -/

inductive GetResult (T : Type v) where
  | ok (value : T)
  | entryNotFound
  | downcastFailed
deriving DecidableEq

/-- Model of `EntryReadGuard::get` and `EntryWriteGuard::get`/`get_mut`: slot lookup
through the interface, then checked downcast from the registry's element
type `regTag` to the handle's type parameter `entryTag`. -/
def guardGet (regTag entryTag : Nat) (s : Inner T) (entry_id : Nat) :
    GetResult T :=
  match mapLookup entry_id s.map with
  | none => GetResult.entryNotFound
  | some v =>
    if entryTag = regTag then GetResult.ok v else GetResult.downcastFailed

/-- Claim C9: for every handle issued by `register` on a living registry that
has not been dropped and not been type-erased (its tag is the registry's
element tag `t`), guard access succeeds: the slot lookup finds a value and
the downcast succeeds, so neither panic branch is reachable.  The trace
bound reflects the `u32` counter (cf. C10). -/
theorem claim9_guard_get_no_panic {T : Type v} (t : Nat) (ops : List (ROp T))
    (h : regCount ops < U32) :
    ∀ i ∈ (runOps ops ⟨Inner.new, [], []⟩).live,
      ∃ u, guardGet t t (runOps ops ⟨Inner.new, [], []⟩).inner i =
          GetResult.ok u ∧
        guardGet t t (runOps ops ⟨Inner.new, [], []⟩).inner i ≠
          GetResult.entryNotFound ∧
        guardGet t t (runOps ops ⟨Inner.new, [], []⟩).inner i ≠
          GetResult.downcastFailed := by
  obtain ⟨hinv, -, -⟩ := runOps_spec ops ⟨Inner.new, [], []⟩ runInv_init
    (by simpa [Inner.new] using h)
  intro i hi
  have hsome := (hinv.live_iff i).1 hi
  obtain ⟨u, hu⟩ : ∃ u,
      mapLookup i (runOps ops ⟨Inner.new, [], []⟩).inner.map = some u := by
    cases hlk : mapLookup i (runOps ops ⟨Inner.new, [], []⟩).inner.map with
    | none => rw [hlk] at hsome; cases hsome
    | some u => exact ⟨u, rfl⟩
  refine ⟨u, ?_, ?_, ?_⟩ <;> simp [guardGet, hu]

/-- Witness for claim C9: two live handles after a three-operation trace; guard
access on the remaining live handle succeeds. -/
theorem claim9_guard_get_no_panic_witness :
    ∃ u, guardGet 3 3 (runOps [ROp.reg 5, ROp.reg 6, ROp.drp 0]
        (⟨Inner.new, [], []⟩ : RunState Nat)).inner 1 = GetResult.ok u ∧
      guardGet 3 3 (runOps [ROp.reg 5, ROp.reg 6, ROp.drp 0]
        (⟨Inner.new, [], []⟩ : RunState Nat)).inner 1 ≠ GetResult.entryNotFound ∧
      guardGet 3 3 (runOps [ROp.reg 5, ROp.reg 6, ROp.drp 0]
        (⟨Inner.new, [], []⟩ : RunState Nat)).inner 1 ≠ GetResult.downcastFailed :=
  claim9_guard_get_no_panic 3 [ROp.reg 5, ROp.reg 6, ROp.drp 0] (by decide)
    1 (by decide)
